import Mathlib

/-!
Verification development for the SafeMPC/tss-lib core.

The repository source under `src/` contains the `tss` peer-context code and the
test suites of the `common` and `eddsa/signing` packages.  The bodies of the
hashed, random and encoding primitives (and of the EdDSA signing rounds) are
not part of `src/`; those are modelled here from the specification document,
and every such definition carries a doc comment starting `Modelled from the
spec:`.  Machine integers are modelled as `Nat` with explicit reduction
`% 2 ^ 64`; byte strings are `List Nat` whose elements are byte values.
-/

namespace TssLib

/-! Byte-string primitives shared by the encodings and the hash models. -/

/-- Little-endian byte encoding of `n` into exactly `k` bytes (the value is
truncated modulo `2 ^ (8 * k)`). -/
def natToLEbytes : Nat → Nat → List Nat
  | 0, _ => []
  | k + 1, n => (n % 256) :: natToLEbytes k (n / 256)

/-- Little-endian interpretation of a byte string as an unsigned integer. -/
def leBytesToNat : List Nat → Nat
  | [] => 0
  | b :: bs => b + 256 * leBytesToNat bs

/-- Big-endian byte encoding of `n` into exactly `k` bytes. -/
def natToBEbytes (k n : Nat) : List Nat :=
  (natToLEbytes k n).reverse

/-- Big-endian interpretation of a byte string as an unsigned integer
(each element is normalised to a byte first). -/
def beBytesToNat (bs : List Nat) : Nat :=
  bs.foldl (fun acc b => acc * 256 + b % 256) 0

/-- Minimal big-endian byte encoding of `n` (empty for `0`), as produced by
Go's `big.Int.Bytes`. -/
def natToMinBE (n : Nat) : List Nat :=
  if n = 0 then [] else natToMinBE (n / 256) ++ [n % 256]
termination_by n
decreasing_by exact Nat.div_lt_self (Nat.pos_of_ne_zero (by assumption)) (by decide)

/-! SHA-512 core, translated from FIPS 180-4.  The spec names SHA-512 (for the
EdDSA challenge) and SHA-512 truncated to 256 bits, i.e. SHA-512/256 with its
own initial vector (the Go code under test calls `sha512.New512_256`), as the
primitive hashes.  Words are `Nat` reduced modulo `2 ^ 64`. -/

/-- Reduce to a 64-bit word. -/
def w64 (x : Nat) : Nat := x % 2 ^ 64

/-- Right rotation of a 64-bit word. -/
def rotr64 (n x : Nat) : Nat := ((x >>> n) ||| (x <<< (64 - n))) % 2 ^ 64

/-- SHA-512 choice function. -/
def ch64 (x y z : Nat) : Nat := (x &&& y) ^^^ ((x ^^^ (2 ^ 64 - 1)) &&& z)

/-- SHA-512 majority function. -/
def maj64 (x y z : Nat) : Nat := (x &&& y) ^^^ (x &&& z) ^^^ (y &&& z)

/-- SHA-512 Σ₀. -/
def bigSigma0 (x : Nat) : Nat := rotr64 28 x ^^^ rotr64 34 x ^^^ rotr64 39 x

/-- SHA-512 Σ₁. -/
def bigSigma1 (x : Nat) : Nat := rotr64 14 x ^^^ rotr64 18 x ^^^ rotr64 41 x

/-- SHA-512 σ₀. -/
def smallSigma0 (x : Nat) : Nat := rotr64 1 x ^^^ rotr64 8 x ^^^ (x >>> 7)

/-- SHA-512 σ₁. -/
def smallSigma1 (x : Nat) : Nat := rotr64 19 x ^^^ rotr64 61 x ^^^ (x >>> 6)

/-- The 80 SHA-512 round constants of FIPS 180-4. -/
def sha512K : List Nat :=
  [4794697086780616226, 8158064640168781261, 13096744586834688815, 16840607885511220156, 4131703408338449720,
   6480981068601479193, 10538285296894168987, 12329834152419229976, 15566598209576043074, 1334009975649890238,
   2608012711638119052, 6128411473006802146, 8268148722764581231, 9286055187155687089, 11230858885718282805,
   13951009754708518548, 16472876342353939154, 17275323862435702243, 1135362057144423861, 2597628984639134821,
   3308224258029322869, 5365058923640841347, 6679025012923562964, 8573033837759648693, 10970295158949994411,
   12119686244451234320, 12683024718118986047, 13788192230050041572, 14330467153632333762, 15395433587784984357,
   489312712824947311, 1452737877330783856, 2861767655752347644, 3322285676063803686, 5560940570517711597,
   5996557281743188959, 7280758554555802590, 8532644243296465576, 9350256976987008742, 10552545826968843579,
   11727347734174303076, 12113106623233404929, 14000437183269869457, 14369950271660146224, 15101387698204529176,
   15463397548674623760, 17586052441742319658, 1182934255886127544, 1847814050463011016, 2177327727835720531,
   2830643537854262169, 3796741975233480872, 4115178125766777443, 5681478168544905931, 6601373596472566643,
   7507060721942968483, 8399075790359081724, 8693463985226723168, 9568029438360202098, 10144078919501101548,
   10430055236837252648, 11840083180663258601, 13761210420658862357, 14299343276471374635, 14566680578165727644,
   15097957966210449927, 16922976911328602910, 17689382322260857208, 500013540394364858, 748580250866718886,
   1242879168328830382, 1977374033974150939, 2944078676154940804, 3659926193048069267, 4368137639120453308,
   4836135668995329356, 5532061633213252278, 6448918945643986474, 6902733635092675308, 7801388544844847127]

/-- The eight 64-bit chaining variables of the SHA-512 family. -/
structure Sha512State where
  a : Nat
  b : Nat
  c : Nat
  d : Nat
  e : Nat
  f : Nat
  g : Nat
  h : Nat

/-- SHA-512 initial vector. -/
def sha512IV : Sha512State :=
  ⟨7640891576956012808, 13503953896175478587, 4354685564936845355,
   11912009170470909681, 5840696475078001361, 11170449401992604703,
   2270897969802886507, 6620516959819538809⟩

/-- SHA-512/256 initial vector. -/
def sha512t256IV : Sha512State :=
  ⟨2463787394917988140, 11481187982095705282, 2563595384472711505,
   10824532655140301501, 10819967247969091555, 13717434660681038226,
   3098927326965381290, 1060366662362279074⟩

/-- FIPS 180-4 padding: append `0x80`, zero bytes, then the bit length as a
16-byte big-endian integer, reaching a multiple of 128 bytes. -/
def padMessage (msg : List Nat) : List Nat :=
  msg ++ [0x80] ++ List.replicate ((128 - (msg.length + 17) % 128) % 128) 0 ++
    natToBEbytes 16 (8 * msg.length)

/-- The 80-entry message schedule of one 128-byte block. -/
def messageSchedule (block : List Nat) : Array Nat :=
  let w0 : Array Nat := (Array.range 16).map (fun i => beBytesToNat ((block.drop (8 * i)).take 8))
  (List.range 64).foldl
    (fun w t =>
      w.push (w64 (smallSigma1 (w.getD (t + 14) 0) + w.getD (t + 9) 0 +
        smallSigma0 (w.getD (t + 1) 0) + w.getD t 0)))
    w0

/-- One round of the SHA-512 compression function. -/
def sha512Round (w : Array Nat) (s : Sha512State) (t : Nat) : Sha512State :=
  let T1 := w64 (s.h + bigSigma1 s.e + ch64 s.e s.f s.g + sha512K.getD t 0 + w.getD t 0)
  let T2 := w64 (bigSigma0 s.a + maj64 s.a s.b s.c)
  ⟨w64 (T1 + T2), s.a, s.b, s.c, w64 (s.d + T1), s.e, s.f, s.g⟩

/-- Compression of one 128-byte block into the chaining state. -/
def sha512Compress (s : Sha512State) (block : List Nat) : Sha512State :=
  let w := messageSchedule block
  let t := (List.range 80).foldl (sha512Round w) s
  ⟨w64 (s.a + t.a), w64 (s.b + t.b), w64 (s.c + t.c), w64 (s.d + t.d),
   w64 (s.e + t.e), w64 (s.f + t.f), w64 (s.g + t.g), w64 (s.h + t.h)⟩

/-- Split a byte string into its consecutive 128-byte blocks. -/
def chunks128 (l : List Nat) : List (List Nat) :=
  if h : l = [] then [] else l.take 128 :: chunks128 (l.drop 128)
termination_by l.length
decreasing_by
  simp only [List.length_drop]
  exact Nat.sub_lt (List.length_pos.mpr h) (by decide)

/-- Big-endian serialisation of the chaining state, 64 bytes. -/
def sha512StateBytes (s : Sha512State) : List Nat :=
  natToBEbytes 8 s.a ++ natToBEbytes 8 s.b ++ natToBEbytes 8 s.c ++ natToBEbytes 8 s.d ++
    natToBEbytes 8 s.e ++ natToBEbytes 8 s.f ++ natToBEbytes 8 s.g ++ natToBEbytes 8 s.h

/-- Hash a padded message starting from a given initial vector. -/
def sha512Core (iv : Sha512State) (msg : List Nat) : Sha512State :=
  (chunks128 (padMessage msg)).foldl sha512Compress iv

/-- SHA-512 of a byte string, as a 64-byte digest. -/
def sha512 (msg : List Nat) : List Nat := sha512StateBytes (sha512Core sha512IV msg)

/-- SHA-512/256 of a byte string, as a 32-byte digest: the SHA-512 core started
from the SHA-512/256 initial vector, truncated to 256 bits. -/
def sha512t256 (msg : List Nat) : List Nat :=
  (sha512StateBytes (sha512Core sha512t256IV msg)).take 32

/-! Models of the `common` hash API.  The implementation file (`hash.go`) is
not under `src/`; only its tests are, so the functions are modelled from the
specification (§4.2) and checked against the behaviour the tests record. -/

/-- Length-prefixed concatenation as the hash streams it: each input is
appended after its length encoded as a 64-bit big-endian integer. -/
def lenPrefixedConcat (ins : List (List Nat)) : List Nat :=
  ins.foldl (fun acc b => acc ++ (natToBEbytes 8 b.length ++ b)) []

/-- Modelled from the spec: `common.SHA512_256` (body not under `src/`).
SHA-512 truncated to 256 bits over the concatenation of the inputs, each
input prefixed with its length as a 64-bit big-endian integer; `nil`
(here `none`) when called with zero inputs, as the tests record. -/
def SHA512_256 (ins : List (List Nat)) : Option (List Nat) :=
  if ins.isEmpty then none else some (sha512t256 (lenPrefixedConcat ins))

/-- Modelled from the spec: `common.SHA512_256i` (body not under `src/`).
Each integer is encoded as its minimal big-endian byte representation (Go
`big.Int.Bytes`, which encodes the absolute value) and fed through the
length-prefixed hash; the digest is reinterpreted as an unsigned integer;
`none` when called with zero inputs. -/
def SHA512_256i (ins : List Int) : Option Nat :=
  (SHA512_256 (ins.map (fun n => natToMinBE n.natAbs))).map beBytesToNat

/-- Modelled from the spec: `common.SHA512_256i_TAGGED` (body not under
`src/`).  The tagged form prefixes the tag's length-prefixed bytes before the
integer inputs; `none` when called with zero integer inputs, as the tests
record (a non-empty tag with zero inputs still yields `nil`). -/
def SHA512_256i_TAGGED (tag : List Nat) (ins : List Int) : Option Nat :=
  if ins.isEmpty then none
  else (SHA512_256 (tag :: ins.map (fun n => natToMinBE n.natAbs))).map beBytesToNat

/-! Models of `common`'s modular arithmetic and interval check.  `int.go` is
not under `src/`; the operations are modelled from the specification (§4.1):
results always reduced to `[0, m)` (Go `big.Int.Mod` is Euclidean, as is
`Int.emod` for a positive modulus), division via modular inverse. -/

/-- Modelled from the spec: `ModInt(m).Add` — add, then reduce into `[0, m)`. -/
def modAdd (m x y : Int) : Int := (x + y) % m

/-- Modelled from the spec: `ModInt(m).Sub` — subtract, then reduce into `[0, m)`. -/
def modSub (m x y : Int) : Int := (x - y) % m

/-- Modelled from the spec: `ModInt(m).Mul` — multiply, then reduce into `[0, m)`. -/
def modMul (m x y : Int) : Int := (x * y) % m

/-- Modelled from the spec: `ModInt(m).Exp` — raise to a non-negative power,
then reduce into `[0, m)`. -/
def modExp (m x : Int) (e : Nat) : Int := (x ^ e) % m

/-- Modelled from the spec: `ModInt(m).ModInverse` — the modular inverse in
`[0, m)` when the argument is invertible, failure (`none`) when the argument
shares a factor with `m`.  The inverse is obtained by searching the residues,
which has the same input-output behaviour as Go's `big.Int.ModInverse`. -/
def modInverse (m y : Int) : Option Int :=
  ((List.range m.toNat).find? (fun i => (y * (i : Int)) % m == 1)).map (fun i => (i : Int))

/-- Modelled from the spec: `ModInt(m).Div` — multiplication by the modular
inverse, reduced into `[0, m)`; fails when the divisor is not invertible. -/
def modDiv (m x y : Int) : Option Int := (modInverse m y).map (fun yi => (x * yi) % m)

/-- Modelled from the spec: `common.IsInInterval(x, bound)` (body not under
`src/`) — true iff `0 ≤ x < bound`, implemented as the conjunction of the two
comparisons. -/
def IsInInterval (x bound : Int) : Bool := decide (x < bound) && decide (0 ≤ x)

/-- Modelled from the spec: `common.GetRandomPositiveInt(reader, bound)` (body
not under `src/`) — repeated sampling from the reader, rejecting candidates
until one lies in `[1, bound)`.  The stream of draws taken from the reader is
modelled as a list; the rejection loop is the first accepted draw.  (`none`
models a loop that has not yet accepted; termination of the loop is
probabilistic and outside the shallow embedding.) -/
def GetRandomPositiveInt (draws : List Nat) (bound : Nat) : Option Nat :=
  draws.find? (fun c => decide (1 ≤ c) && decide (c < bound))

/-! Models of the `eddsa/signing` byte utilities.  `utils.go` is not under
`src/`; only its fuzz tests are.  Modelled from the specification (§4.11:
canonical 64-byte Ed25519, little-endian `R ‖ S`; round-trip law §8: bigint →
32-byte little-endian → bigint identity below `2 ^ 256`). -/

/-- Modelled from the spec: `signing.bigIntToEncodedBytes` (body not under
`src/`) — the 32-byte little-endian encoding of a non-negative integer. -/
def bigIntToEncodedBytes (v : Nat) : List Nat := natToLEbytes 32 v

/-- Modelled from the spec: `signing.encodedBytesToBigInt` (body not under
`src/`) — little-endian decoding of a 32-byte string to an integer. -/
def encodedBytesToBigInt (bs : List Nat) : Nat := leBytesToNat bs

/-- Modelled from the spec: `signing.copyBytes` (body not under `src/`) — `nil`
for `nil` input; otherwise a 32-byte array holding the input front-padded with
zero bytes when shorter than 32 bytes and truncated to its first 32 bytes when
longer (the truncation behaviour the audit report records). -/
def copyBytes : Option (List Nat) → Option (List Nat)
  | none => none
  | some aB => some ((List.replicate (32 - aB.length) 0 ++ aB).take 32)

/-- Modelled from the spec: `signing.SignatureToStandardEd25519` (body not
under `src/`) — the library's signature is already standard RFC-8032 format,
so the function validates that the input is exactly 64 bytes and returns the
64-byte signature, erring on any other length. -/
def SignatureToStandardEd25519 (sig : List Nat) : Except String (List Nat) :=
  if sig.length = 64 then Except.ok sig else Except.error "signature must be 64 bytes"

/-! Embedding of `src/tss/peers.go`.  The `PartyID` record and its sort key are
modelled from the specification (§3: a stable string identity, a label, and a
unique big-integer key used as the sort key); the `PeerContext` operations are
translated from the source. -/

/-- A protocol participant: stable id, human-readable label, and the unique
big-integer key used as Shamir x-coordinate and sort key (spec §3). -/
structure PartyID where
  id : String
  moniker : String
  key : Int

/-- The type of party lists kept in sorted order (`tss.SortedPartyIDs`). -/
abbrev SortedPartyIDs := List PartyID

/-- `tss.PeerContext` from `src/tss/peers.go`: the ordered list of PartyIDs
participating in the current round. -/
structure PeerContext where
  partyIDs : SortedPartyIDs

/-- `tss.NewPeerContext` from `src/tss/peers.go`: stores the given sorted
party list. -/
def NewPeerContext (parties : SortedPartyIDs) : PeerContext :=
  { partyIDs := parties }

/-- `PeerContext.IDs` from `src/tss/peers.go`. -/
def PeerContext.IDs (p2pCtx : PeerContext) : SortedPartyIDs := p2pCtx.partyIDs

/-- `PeerContext.SetIDs` from `src/tss/peers.go`: replaces the stored party
list (the Go method mutates the receiver; modelled functionally). -/
def PeerContext.SetIDs (p2pCtx : PeerContext) (ids : SortedPartyIDs) : PeerContext :=
  { p2pCtx with partyIDs := ids }

/-- The `SortedPartyIDs` invariant (spec §3): keys strictly increase along the
list, which makes the order total and stable and the PartyIDs pairwise
distinct. -/
def SortedByKey (ids : SortedPartyIDs) : Prop :=
  ids.Pairwise (fun a b => a.key < b.key)

/-! Model of the EdDSA threshold signing output and of a stock RFC-8032
verifier.  The signing rounds (`eddsa/signing/round_3.go`, `finalize.go`) are
not under `src/`; they are modelled from the specification (§4.10, §4.11). -/

/-- The order of the prime-order subgroup of Edwards25519 (the scalar field
size `q` of spec §4.10). -/
def edOrder : Nat := 2 ^ 252 + 27742317777372353535851937790883648493

instance : NeZero edOrder := ⟨by norm_num [edOrder]⟩

/-- Scalars modulo the Edwards25519 group order. -/
abbrev EdScalar := ZMod edOrder

/-- Modelled from the spec: the prime-order subgroup of Edwards25519 is cyclic
of order `edOrder`, so it is modelled by the isomorphic group `ZMod edOrder`,
a point being represented by its discrete logarithm with respect to the base
point `G`.  The canonical 32-byte compressed point encoding (§4.3) is modelled
as the injective little-endian 32-byte encoding of the representative; a
32-byte string decodes to a valid group element iff its value is below
`edOrder`. -/
def encode32 (s : EdScalar) : List Nat := natToLEbytes 32 s.val

/-- Modelled from the spec: the EdDSA challenge `h = SHA-512(R_enc ‖ A_enc ‖ M)`
interpreted as a little-endian integer and reduced mod `q` (§4.10 signing
round 3), over the raw message bytes. -/
def edChallenge (renc aenc msg : List Nat) : EdScalar :=
  (leBytesToNat (sha512 (renc ++ aenc ++ msg)) : EdScalar)

/-- One signer of the active quorum: Lagrange coefficient `λ_i` over the
quorum, secret share `x_i`, and nonce `r_i` (spec §4.10). -/
structure SignerShare where
  lam : EdScalar
  x : EdScalar
  r : EdScalar

/-- The joint secret key reconstructed by Lagrange interpolation over the
quorum, `Σ λ_i · x_i` (spec §4.5, §8); the joint public key is `A = x · G`. -/
def jointKey (shares : List SignerShare) : EdScalar :=
  (shares.map (fun s => s.lam * s.x)).sum

/-- The combined nonce point `R = Σ R_i = (Σ r_i) · G` (spec §4.10 round 2). -/
def noncePoint (shares : List SignerShare) : EdScalar :=
  (shares.map (fun s => s.r)).sum

/-- The joint public key in its canonical 32-byte encoding. -/
def eddsaPubKeyBytes (shares : List SignerShare) : List Nat :=
  encode32 (jointKey shares)

/-- Modelled from the spec: the EdDSA threshold signing output (§4.10 round 3,
§4.11): each signer sends `s_i = r_i + h · λ_i · x_i mod q`, `s = Σ s_i mod q`,
and the signature is the 64-byte string `R_enc ‖ encode_scalar_le(s)`. -/
def eddsaThresholdSign (shares : List SignerShare) (msg : List Nat) : List Nat :=
  let A := jointKey shares
  let R := noncePoint shares
  let h := edChallenge (encode32 R) (encode32 A) msg
  let s : EdScalar := (shares.map (fun sh => sh.r + h * sh.lam * sh.x)).sum
  encode32 R ++ natToLEbytes 32 s.val

/-- Modelled from the spec: a stock RFC-8032 Ed25519 verifier.  It splits the
64-byte signature into `R_enc ‖ S_enc`, rejects a non-64-byte signature or a
scalar `S ≥ q`, decodes the point encodings (valid iff below `edOrder` in the
cyclic-group model), recomputes `h = SHA-512(R_enc ‖ A_enc ‖ M) mod q` over
the raw message, and checks the group equation `[S]G = R + [h]A`. -/
def ed25519Verify (pk msg sig : List Nat) : Bool :=
  decide (sig.length = 64) && decide (pk.length = 32) &&
    (let renc := sig.take 32
     let senc := sig.drop 32
     let sN := leBytesToNat senc
     let rN := leBytesToNat renc
     let aN := leBytesToNat pk
     decide (sN < edOrder) && decide (rN < edOrder) && decide (aN < edOrder) &&
       decide ((sN : EdScalar) =
         (rN : EdScalar) + edChallenge renc pk msg * (aN : EdScalar)))

/-! Helper lemmas about the byte encodings. -/

theorem natToLEbytes_length (k n : Nat) : (natToLEbytes k n).length = k := by
  induction k generalizing n with
  | zero => rfl
  | succ k ih => simp [natToLEbytes, ih]

theorem natToBEbytes_length (k n : Nat) : (natToBEbytes k n).length = k := by
  simp [natToBEbytes, natToLEbytes_length]

theorem leBytesToNat_natToLEbytes (k n : Nat) :
    leBytesToNat (natToLEbytes k n) = n % 256 ^ k := by
  induction k generalizing n with
  | zero => simp [natToLEbytes, leBytesToNat, Nat.mod_one]
  | succ k ih =>
    simp only [natToLEbytes, leBytesToNat, ih]
    rw [pow_succ, mul_comm (256 ^ k) 256, Nat.mod_mul]

theorem leBytesToNat_natToLEbytes32 (n : Nat) (h : n < 2 ^ 256) :
    leBytesToNat (natToLEbytes 32 n) = n := by
  rw [leBytesToNat_natToLEbytes]
  have h2 : (256 : Nat) ^ 32 = 2 ^ 256 := by norm_num
  rw [h2]
  exact Nat.mod_eq_of_lt h

theorem foldl_append_eq_flatten {α : Type} (f : α → List Nat) (l : List α) (acc : List Nat) :
    l.foldl (fun a b => a ++ f b) acc = acc ++ (l.map f).flatten := by
  induction l generalizing acc with
  | nil => simp
  | cons a t ih => simp [ih, List.append_assoc]

theorem lenPrefixedConcat_eq_flatten (ins : List (List Nat)) :
    lenPrefixedConcat ins = (ins.map (fun b => natToBEbytes 8 b.length ++ b)).flatten := by
  unfold lenPrefixedConcat
  rw [foldl_append_eq_flatten]
  simp

theorem sha512StateBytes_length (s : Sha512State) : (sha512StateBytes s).length = 64 := by
  simp [sha512StateBytes, natToBEbytes_length]

theorem sha512t256_length (msg : List Nat) : (sha512t256 msg).length = 32 := by
  simp [sha512t256, sha512StateBytes_length]

/-! Claim theorems. -/

/-- C2: for every non-negative integer `v < 2 ^ 256`, decoding the 32-byte
little-endian encoding of `v` yields `v` again, and `bigIntToEncodedBytes`
always returns exactly 32 bytes. -/
theorem c2_encoding_roundtrip :
    (∀ v : Nat, (bigIntToEncodedBytes v).length = 32) ∧
      ∀ v : Nat, v < 2 ^ 256 → encodedBytesToBigInt (bigIntToEncodedBytes v) = v := by
  exact ⟨fun v => natToLEbytes_length 32 v, fun v hv => leBytesToNat_natToLEbytes32 v hv⟩

/-- Witness for C2 at the concrete value `123456789`. -/
theorem c2_encoding_roundtrip_witness :
    (bigIntToEncodedBytes 123456789).length = 32 ∧
      encodedBytesToBigInt (bigIntToEncodedBytes 123456789) = 123456789 :=
  ⟨c2_encoding_roundtrip.1 123456789, c2_encoding_roundtrip.2 123456789 (by norm_num)⟩

/-- C3: `NewPeerContext` and `SetIDs` (from `src/tss/peers.go`) store the given
party list unchanged, so whenever the list satisfies the `SortedPartyIDs`
invariant — keys strictly increasing, hence a total stable order with pairwise
distinct PartyIDs — the resulting `PeerContext` contains pairwise unique
PartyIDs in sorted order. -/
theorem c3_peer_context_sorted (ids : SortedPartyIDs) (ctx : PeerContext)
    (hs : SortedByKey ids) :
    SortedByKey (NewPeerContext ids).IDs ∧
      (NewPeerContext ids).IDs.Pairwise (fun a b => a.key ≠ b.key) ∧
      SortedByKey ((ctx.SetIDs ids).IDs) ∧
      ((ctx.SetIDs ids).IDs).Pairwise (fun a b => a.key ≠ b.key) := by
  refine ⟨hs, ?_, hs, ?_⟩ <;> exact hs.imp (fun hab => ne_of_lt hab)

/-- Witness for C3 on a concrete two-party context. -/
theorem c3_peer_context_sorted_witness :
    SortedByKey (NewPeerContext [⟨"1", "a", 1⟩, ⟨"2", "b", 2⟩]).IDs ∧
      (NewPeerContext [⟨"1", "a", 1⟩, ⟨"2", "b", 2⟩]).IDs.Pairwise
        (fun a b => a.key ≠ b.key) ∧
      SortedByKey (((NewPeerContext []).SetIDs [⟨"1", "a", 1⟩, ⟨"2", "b", 2⟩]).IDs) ∧
      (((NewPeerContext []).SetIDs [⟨"1", "a", 1⟩, ⟨"2", "b", 2⟩]).IDs).Pairwise
        (fun a b => a.key ≠ b.key) :=
  c3_peer_context_sorted [⟨"1", "a", 1⟩, ⟨"2", "b", 2⟩] (NewPeerContext [])
    (by simp [SortedByKey])

/-- C4: on a non-empty input list, `SHA512_256` equals SHA-512 truncated to
256 bits of the concatenation in which each input is prefixed by its length as
a 64-bit big-endian integer, and the digest is 32 bytes long. -/
theorem c4_sha512_256_length_prefixed (b : List Nat) (bs : List (List Nat)) :
    SHA512_256 (b :: bs) =
      some (sha512t256 (((b :: bs).map (fun x => natToBEbytes 8 x.length ++ x)).flatten)) ∧
      (sha512t256 (((b :: bs).map (fun x => natToBEbytes 8 x.length ++ x)).flatten)).length
        = 32 := by
  refine ⟨?_, sha512t256_length _⟩
  simp [SHA512_256, lenPrefixedConcat_eq_flatten]

/-- C5: whenever the rejection-sampling loop of `GetRandomPositiveInt` returns
a value `r`, then `1 ≤ r < bound`; in particular `0` is never returned. -/
theorem c5_random_positive_int (draws : List Nat) (bound r : Nat)
    (h : GetRandomPositiveInt draws bound = some r) : 1 ≤ r ∧ r < bound := by
  unfold GetRandomPositiveInt at h
  have hp := List.find?_some h
  simpa using hp

/-- Witness for C5 on the concrete draw stream `[0, 5]` and bound `7`. -/
theorem c5_random_positive_int_witness :
    GetRandomPositiveInt [0, 5] 7 = some 5 ∧ 1 ≤ 5 ∧ 5 < 7 :=
  ⟨by decide, c5_random_positive_int [0, 5] 7 5 (by decide)⟩

/-- C6: `IsInInterval x bound` is true iff `0 ≤ x < bound`; in particular it is
false at `x = bound` and false for every negative `x`. -/
theorem c6_is_in_interval (x bound : Int) :
    (IsInInterval x bound = true ↔ 0 ≤ x ∧ x < bound) ∧
      IsInInterval bound bound = false ∧ (x < 0 → IsInInterval x bound = false) := by
  refine ⟨?_, ?_, ?_⟩
  · simp [IsInInterval, and_comm]
  · simp [IsInInterval]
  · intro hx
    simp only [IsInInterval, Bool.and_eq_false_iff, decide_eq_false_iff_not, not_le]
    right
    exact hx

/-- Witness for C6 at the concrete negative input `-1` with bound `10`. -/
theorem c6_is_in_interval_witness : IsInInterval (-1) 10 = false :=
  (c6_is_in_interval (-1) 10).2.2 (by decide)

/-- C7: for every modulus `m > 0`, the `ModInt(m)` operations `Add`, `Sub`,
`Mul`, `Exp` return values in `[0, m)` congruent to the mathematical operation
mod `m`, and `Div` (via modular inverse) returns a value in `[0, m)` that
multiplied by the divisor is congruent to the dividend mod `m`. -/
theorem c7_modint_ops (m x y : Int) (e : Nat) (hm : 0 < m) :
    (0 ≤ modAdd m x y ∧ modAdd m x y < m ∧ modAdd m x y % m = (x + y) % m) ∧
      (0 ≤ modSub m x y ∧ modSub m x y < m ∧ modSub m x y % m = (x - y) % m) ∧
      (0 ≤ modMul m x y ∧ modMul m x y < m ∧ modMul m x y % m = (x * y) % m) ∧
      (0 ≤ modExp m x e ∧ modExp m x e < m ∧ modExp m x e % m = (x ^ e) % m) ∧
      ∀ d, modDiv m x y = some d → 0 ≤ d ∧ d < m ∧ (d * y) % m = x % m := by
  have hne : m ≠ 0 := ne_of_gt hm
  have hredux : ∀ a : Int, 0 ≤ a % m ∧ a % m < m ∧ (a % m) % m = a % m := fun a =>
    ⟨Int.emod_nonneg a hne, Int.emod_lt_of_pos a hm, Int.emod_emod_of_dvd a dvd_rfl⟩
  refine ⟨hredux _, hredux _, hredux _, hredux _, ?_⟩
  intro d hd
  unfold modDiv at hd
  rcases Option.map_eq_some'.mp hd with ⟨yi, hyi, hfd⟩
  unfold modInverse at hyi
  rcases Option.map_eq_some'.mp hyi with ⟨i, hi, hcast⟩
  have hp := List.find?_some hi
  have hinv : (y * yi) % m = 1 := by
    rw [← hcast]
    simpa using hp
  have hm1 : 1 < m := by
    rcases lt_or_eq_of_le (Int.add_one_le_iff.mpr hm) with hgt | heq
    · exact hgt
    · exfalso
      rw [← heq] at hinv
      simp [Int.emod_one] at hinv
  subst hfd
  refine ⟨(hredux _).1, (hredux _).2.1, ?_⟩
  have h1 : (x * yi) % m ≡ x * yi [ZMOD m] := Int.emod_emod_of_dvd (x * yi) dvd_rfl
  have h2 : y * yi ≡ 1 [ZMOD m] := by
    show (y * yi) % m = 1 % m
    rw [hinv, Int.emod_eq_of_lt (by norm_num) hm1]
  have key : ((x * yi) % m) * y ≡ x [ZMOD m] := by
    calc ((x * yi) % m) * y ≡ (x * yi) * y [ZMOD m] := h1.mul_right y
      _ = x * (y * yi) := by ring
      _ ≡ x * 1 [ZMOD m] := h2.mul_left x
      _ = x := mul_one x
  exact key

/-- Witness for C7 at the concrete modulus `17` with `x = 12`, `y = 3`,
`e = 5` and quotient `4`. -/
theorem c7_modint_ops_witness :
    (0 ≤ modAdd 17 12 3 ∧ modAdd 17 12 3 < 17 ∧ modAdd 17 12 3 % 17 = (12 + 3) % 17) ∧
      ((0 : Int) ≤ 4 ∧ (4 : Int) < 17 ∧ ((4 : Int) * 3) % 17 = 12 % 17) :=
  ⟨(c7_modint_ops 17 12 3 5 (by decide)).1,
   (c7_modint_ops 17 12 3 5 (by decide)).2.2.2.2 4 (by decide)⟩

/-- C8: hashing an empty list of inputs is rejected: `SHA512_256`,
`SHA512_256i` and `SHA512_256i_TAGGED` signal the error value (`nil`, modelled
`none`) rather than returning an ordinary digest. -/
theorem c8_empty_hash_rejected :
    SHA512_256 [] = none ∧ SHA512_256i [] = none ∧
      ∀ tag, SHA512_256i_TAGGED tag [] = none :=
  ⟨rfl, rfl, fun _ => rfl⟩

/-- C9: `SignatureToStandardEd25519` errs exactly on inputs whose length is not
64 bytes, and on every 64-byte input returns a non-nil 64-byte result. -/
theorem c9_signature_conversion_length (sig : List Nat) :
    ((∃ e, SignatureToStandardEd25519 sig = Except.error e) ↔ sig.length ≠ 64) ∧
      (sig.length = 64 →
        ∃ out, SignatureToStandardEd25519 sig = Except.ok out ∧
          out ≠ [] ∧ out.length = 64) := by
  by_cases h : sig.length = 64
  · constructor
    · simp [SignatureToStandardEd25519, h]
    · intro _
      refine ⟨sig, by simp [SignatureToStandardEd25519, h], ?_, h⟩
      intro hnil
      rw [hnil] at h
      simp at h
  · constructor
    · simp [SignatureToStandardEd25519, h]
    · intro hcon
      exact absurd hcon h

/-- Witness for C9 at the concrete 64-byte all-zero signature. -/
theorem c9_signature_conversion_length_witness :
    ∃ out, SignatureToStandardEd25519 (List.replicate 64 0) = Except.ok out ∧
      out ≠ [] ∧ out.length = 64 :=
  (c9_signature_conversion_length (List.replicate 64 0)).2 (by simp)

/-- C10: `copyBytes` returns `nil` exactly on `nil` input, and on every
non-nil input — empty or longer than 32 bytes included — returns exactly
32 bytes. -/
theorem c10_copy_bytes_shape :
    copyBytes none = none ∧
      ∀ data : List Nat, ∃ out, copyBytes (some data) = some out ∧ out.length = 32 := by
  refine ⟨rfl, fun data => ⟨_, rfl, ?_⟩⟩
  simp only [List.length_take, List.length_append, List.length_replicate]
  omega

/-! Lemmas supporting the EdDSA end-to-end verification claim. -/

theorem edOrder_lt_two_pow : edOrder < 2 ^ 256 := by norm_num [edOrder]

theorem encode32_length (s : EdScalar) : (encode32 s).length = 32 :=
  natToLEbytes_length 32 _

theorem leBytesToNat_encode32 (s : EdScalar) : leBytesToNat (encode32 s) = s.val :=
  leBytesToNat_natToLEbytes32 _ (lt_trans (ZMod.val_lt s) edOrder_lt_two_pow)

theorem natCast_val_eq (s : EdScalar) : ((s.val : Nat) : EdScalar) = s :=
  ZMod.natCast_rightInverse s

theorem take_32_append (l1 l2 : List Nat) (h : l1.length = 32) :
    (l1 ++ l2).take 32 = l1 := by
  rw [← h]
  exact List.take_left l1 l2

theorem drop_32_append (l1 l2 : List Nat) (h : l1.length = 32) :
    (l1 ++ l2).drop 32 = l2 := by
  rw [← h]
  exact List.drop_left l1 l2

theorem sum_map_add {α : Type} (l : List α) (f g : α → EdScalar) :
    (l.map (fun a => f a + g a)).sum = (l.map f).sum + (l.map g).sum := by
  induction l with
  | nil => simp
  | cons a t ih =>
    simp only [List.map_cons, List.sum_cons, ih]
    ring

theorem sum_map_mul_left {α : Type} (l : List α) (c : EdScalar) (f : α → EdScalar) :
    (l.map (fun a => c * f a)).sum = c * (l.map f).sum := by
  induction l with
  | nil => simp
  | cons a t ih => simp [ih, mul_add]

/-- The combined response scalar decomposes as `s = Σ r_i + h · Σ λ_i x_i`,
the algebraic heart of Schnorr completeness. -/
theorem sum_shares_eq (shares : List SignerShare) (h : EdScalar) :
    (shares.map (fun sh => sh.r + h * sh.lam * sh.x)).sum =
      noncePoint shares + h * jointKey shares := by
  unfold noncePoint jointKey
  have hfun : (fun sh : SignerShare => sh.r + h * sh.lam * sh.x) =
      (fun sh : SignerShare => sh.r + h * (sh.lam * sh.x)) := by
    funext sh
    ring
  rw [hfun, sum_map_add, sum_map_mul_left]

/-- C1: every EdDSA threshold signature produced by the signing protocol on
raw message bytes (challenge `SHA-512(R_enc ‖ A_enc ‖ M)`) is a 64-byte
string accepted, without any transformation, by a stock RFC-8032 Ed25519
verifier run on the joint public key, the raw message and the signature. -/
theorem c1_eddsa_signature_verifies (shares : List SignerShare) (msg : List Nat) :
    (eddsaThresholdSign shares msg).length = 64 ∧
      ed25519Verify (eddsaPubKeyBytes shares) msg (eddsaThresholdSign shares msg) = true := by
  have hsig : eddsaThresholdSign shares msg =
      encode32 (noncePoint shares) ++
        natToLEbytes 32 ((shares.map (fun sh => sh.r +
          edChallenge (encode32 (noncePoint shares)) (encode32 (jointKey shares)) msg *
            sh.lam * sh.x)).sum).val := rfl
  set R := noncePoint shares with hR
  set A := jointKey shares with hA
  set ch := edChallenge (encode32 R) (encode32 A) msg with hch
  set s : EdScalar := (shares.map (fun sh => sh.r + ch * sh.lam * sh.x)).sum with hs
  have hlen : (eddsaThresholdSign shares msg).length = 64 := by
    rw [hsig]
    simp [encode32_length, natToLEbytes_length]
  refine ⟨hlen, ?_⟩
  rw [hsig]
  unfold ed25519Verify eddsaPubKeyBytes
  rw [take_32_append _ _ (encode32_length R), drop_32_append _ _ (encode32_length R)]
  simp only [Bool.and_eq_true, decide_eq_true_eq]
  refine ⟨⟨?_, encode32_length A⟩, ⟨⟨?_, ?_⟩, ?_⟩, ?_⟩
  · simp [encode32_length, natToLEbytes_length]
  · rw [leBytesToNat_natToLEbytes32 _ (lt_trans (ZMod.val_lt s) edOrder_lt_two_pow)]
    exact ZMod.val_lt s
  · rw [leBytesToNat_encode32]
    exact ZMod.val_lt R
  · rw [leBytesToNat_encode32]
    exact ZMod.val_lt A
  · rw [leBytesToNat_natToLEbytes32 _ (lt_trans (ZMod.val_lt s) edOrder_lt_two_pow),
      leBytesToNat_encode32, leBytesToNat_encode32,
      natCast_val_eq, natCast_val_eq, natCast_val_eq]
    rw [hs, ← hch]
    exact sum_shares_eq shares ch

end TssLib
